import Mathlib

/-!
# Verification of the littleChef document/operation-log engine

Shallow embedding of the TypeScript sources:
* `packages/dsl/src/types.ts` — `Node`, `Doc`, `Op` (the evolved versions with
  `parentId`/`children`/`rotation` and the seven operation variants);
* `packages/dsl/src/helpers.ts` — `applyOp`, `applyOps`, `isAncestor`,
  `canReparent`, `ungroupNodes`;
* `packages/dsl/src/schemas.ts` — `ColorHexSchema`, the node schemas,
  `OpSchema`/`OpsSchema`, `validateOps`;
* `apps/server/src/store.ts` — `Store` (document map, op logs, subscribers,
  `appendOps`, `getOpsSince`, `broadcast`).

JavaScript machine integers are modelled as `Int`; JS `Map`s as functions
into `Option`; a `Set` kept for membership testing as a duplicate-free list;
exceptions as `Option`; the ambient wall clock of `new Date().toISOString()`
as an explicit `now : String` parameter.  Unbounded structural recursion over
the node graph (`collectChildren` inside the `remove` case, `isAncestor`) is
embedded with an explicit fuel parameter instantiated at call sites with a
bound that dominates every terminating run of the source (the graph has
`nodes.length` vertices, so any simple descending/ascending chain is shorter;
when the source would diverge — a cyclic graph — the claims' forest
hypotheses exclude the input).
-/

/-- The `type` tag of a node: `'rect' | 'text' | 'button' | 'image'`. -/
inductive NodeType where
  | rect
  | text
  | button
  | image
deriving DecidableEq, Repr

/-- A node, from `types.ts`.  The TS `Node` is a tagged union of four record
types; we embed it as one record with the tag plus every field that occurs in
some variant, optional fields as `Option` (absent = `undefined`). -/
structure Node where
  id : String
  type : NodeType
  x : Int
  y : Int
  width : Int
  height : Int
  fill : Option String := none
  stroke : Option String := none
  strokeWidth : Option Int := none
  cornerRadius : Option Int := none
  text : Option String := none
  fontSize : Option Int := none
  fontFamily : Option String := none
  fontWeight : Option String := none
  label : Option String := none
  textFill : Option String := none
  src : Option String := none
  align : Option String := none
  verticalAlign : Option String := none
  rotation : Option Int := none
  parentId : Option String := none
  children : Option (List String) := none
deriving DecidableEq, Repr

/-- The `children` array of a node, defaulting to `[]` when absent — the
`node.children || []` idiom of `helpers.ts`. -/
def childrenD (n : Node) : List String := n.children.getD []

/-- An `update` operation's `patch : Record<string, any>`, spread onto the
node with `{ ...node, ...op.patch }`.  We model the keys the repository
actually patches; a `some` field means the key is present and overrides the
node's field. -/
structure Patch where
  id : Option String := none
  x : Option Int := none
  y : Option Int := none
  width : Option Int := none
  height : Option Int := none
  fill : Option String := none
  text : Option String := none
  rotation : Option Int := none
  parentId : Option (Option String) := none
  children : Option (List String) := none
deriving DecidableEq, Repr

/-- Shallow merge `{ ...node, ...patch }`: patch keys win. -/
def applyPatch (n : Node) (p : Patch) : Node :=
  { n with
    id := p.id.getD n.id
    x := p.x.getD n.x
    y := p.y.getD n.y
    width := p.width.getD n.width
    height := p.height.getD n.height
    fill := match p.fill with | some f => some f | none => n.fill
    text := match p.text with | some t => some t | none => n.text
    rotation := match p.rotation with | some r => some r | none => n.rotation
    parentId := p.parentId.getD n.parentId
    children := match p.children with | some cs => some cs | none => n.children }

/-- The seven operation variants of `types.ts`. -/
inductive Op where
  | add (node : Node)
  | update (id : String) (patch : Patch)
  | remove (id : String)
  | reorder (id : String) (z : Int)
  | reparent (id : String) (parentId : Option String)
  | addChild (parentId : String) (childId : String)
  | removeChild (parentId : String) (childId : String)
deriving DecidableEq, Repr

/-- A document, from `types.ts`. -/
structure Doc where
  id : String
  width : Int
  height : Int
  nodes : List Node
  version : Nat
  schemaVersion : Nat
  title : Option String := none
  createdAt : String
  updatedAt : String
deriving DecidableEq, Repr

/-- The expression `op.parentId || undefined` from the `reparent` case: JS treats both
`null` and the empty string as falsy, so either becomes `undefined`. -/
def jsTruthyOpt : Option String → Option String
  | some s => if s = "" then none else some s
  | none => none

/-- The recursive `collectChildren` closure inside `applyOp`'s `remove` case:
`nodesToRemove.add(nodeId)`, then recurse into the found node's `children`.
The JS `Set` is a duplicate-free list with membership-guarded insertion; the
unbounded recursion carries fuel (instantiated with `nodes.length + 1` at the
call site, which dominates the depth of every terminating run). -/
def collectRemove (nodes : List Node) : Nat → String → List String → List String
  | 0, _, acc => acc
  | fuel + 1, nodeId, acc =>
    let acc1 := if nodeId ∈ acc then acc else acc ++ [nodeId]
    match nodes.find? (fun n => n.id == nodeId) with
    | some node =>
      (childrenD node).foldl (fun a childId => collectRemove nodes fuel childId a) acc1
    | none => acc1

/-- The `switch (op.t)` body of `applyOp` from `helpers.ts`: every case only
rewrites `doc.nodes`, so it is factored over the node list. -/
def applyOpNodes (nodes : List Node) : Op → List Node
  | .add node => nodes ++ [node]
  | .update id patch =>
      nodes.map (fun n => if n.id = id then applyPatch n patch else n)
  | .remove id =>
      let nodesToRemove := collectRemove nodes (nodes.length + 1) id []
      nodes.filter (fun n => !(nodesToRemove.contains n.id))
  | .reorder id z =>
      nodes.map (fun n => if n.id = id then { n with y := z } else n)
  | .reparent id parentId =>
      nodes.map (fun n => if n.id = id then { n with parentId := jsTruthyOpt parentId } else n)
  | .addChild parentId childId =>
      nodes.map (fun n =>
        if n.id = parentId then { n with children := some (childrenD n ++ [childId]) } else n)
  | .removeChild parentId childId =>
      nodes.map (fun n =>
        if n.id = parentId then
          { n with children := some ((childrenD n).filter (fun i => !(i == childId))) }
        else n)

/-- The function `applyOp(doc, op)` from `helpers.ts`: rewrite the node list per the
operation, then `updatedDoc.version += 1` and refresh `updatedAt` (the
ambient clock is the explicit `now`). -/
def applyOp (now : String) (doc : Doc) (op : Op) : Doc :=
  let updatedDoc := { doc with nodes := applyOpNodes doc.nodes op }
  { updatedDoc with version := updatedDoc.version + 1, updatedAt := now }

/-- The fold `applyOps(doc, ops) = ops.reduce(applyOp, doc)`. -/
def applyOps (now : String) (doc : Doc) (ops : List Op) : Doc :=
  ops.foldl (applyOp now) doc

/-- The recursion of `isAncestor` from `helpers.ts`, climbing the parent
chain of `descendantId`.  JS note: `!descendant?.parentId` is true for the
empty string as well, so an empty `parentId` stops the climb.  Fuel as in
`collectRemove`. -/
def isAncestorGo (nodes : List Node) : Nat → String → String → Bool
  | 0, _, _ => false
  | fuel + 1, ancestorId, descendantId =>
    match nodes.find? (fun n => n.id == descendantId) with
    | none => false
    | some descendant =>
      match descendant.parentId with
      | none => false
      | some p =>
        if p = "" then false
        else if p = ancestorId then true
        else isAncestorGo nodes fuel ancestorId p

/-- The wrapper `isAncestor(doc, ancestorId, descendantId)`; fuel `doc.nodes.length`
dominates the length of every terminating parent chain. -/
def isAncestor (doc : Doc) (ancestorId descendantId : String) : Bool :=
  isAncestorGo doc.nodes doc.nodes.length ancestorId descendantId

/-- The guard `canReparent(doc, nodeId, newParentId)` from `helpers.ts`.  JS note:
`!newParentId` is also true for the empty string. -/
def canReparent (doc : Doc) (nodeId : String) (newParentId : Option String) : Bool :=
  match newParentId with
  | none => true
  | some p =>
    if p = "" then true
    else if nodeId = p then false
    else !(isAncestor doc nodeId p)

/-- The composite `ungroupNodes(doc, groupId)` from `helpers.ts`: one `reparent`-to-null
per listed child, then a `remove` of the container.  The TS throws when the
group is missing or its `children` is `undefined`; that is the `none`
branch. -/
def ungroupNodes (doc : Doc) (groupId : String) : Option (List Op) :=
  match doc.nodes.find? (fun n => n.id == groupId) with
  | some groupNode =>
    match groupNode.children with
    | some cs =>
      some ((cs.map (fun childId => Op.reparent childId none)) ++ [Op.remove groupId])
    | none => none
  | none => none

/-! ## Validation layer (`schemas.ts`)

The zod schemas are embedded as boolean acceptors over the already-typed
values: field-level constraints become boolean checks, `z.discriminatedUnion`
becomes a case split, and `.parse` (throw on failure) becomes `Option`. -/

/-- The schema `ColorHexSchema = z.string().regex(/^#[0-9A-Fa-f]{6}$/)`. -/
def colorHexOk (s : String) : Bool :=
  match s.toList with
  | '#' :: rest => rest.length == 6 && rest.all (fun c =>
      ('0' ≤ c && c ≤ '9') || ('a' ≤ c && c ≤ 'f') || ('A' ≤ c && c ≤ 'F'))
  | _ => false

/-- The schema `BaseNodeSchema`: `id` nonempty, `x, y ≥ 0`, `width, height ≥ 1`
(integrality is carried by the `Int` type). -/
def baseNodeOk (n : Node) : Bool :=
  n.id != "" && n.x ≥ 0 && n.y ≥ 0 && n.width ≥ 1 && n.height ≥ 1

/-- An optional field validated by `check` when present
(`schema.optional()`). -/
def optOk (check : α → Bool) : Option α → Bool
  | some v => check v
  | none => true

/-- A field the schema requires: absent (`undefined`) fails. -/
def reqOk (check : α → Bool) : Option α → Bool
  | some v => check v
  | none => false

/-- The check `z.string().url()` of `ImageNodeSchema`, modelled as requiring an
explicit scheme separator as `new URL` does. -/
def urlOk (s : String) : Bool :=
  s.startsWith "http://" || s.startsWith "https://"

/-- The union `NodeSchema = z.discriminatedUnion('type', [Rect, Text, Button, Image])`
from `schemas.ts`. -/
def nodeSchemaOk (n : Node) : Bool :=
  baseNodeOk n &&
  match n.type with
  | .rect =>
      reqOk colorHexOk n.fill && optOk colorHexOk n.stroke &&
      optOk (fun w => w ≥ 0) n.strokeWidth && optOk (fun r => r ≥ 0) n.cornerRadius
  | .text =>
      reqOk (fun _ => true) n.text &&
      reqOk (fun s => 8 ≤ s && s ≤ 72) n.fontSize &&
      reqOk (fun f => f != "") n.fontFamily && reqOk (fun _ => true) n.fontWeight &&
      reqOk colorHexOk n.fill &&
      reqOk (fun a => a == "left" || a == "center" || a == "right") n.align &&
      reqOk (fun a => a == "top" || a == "middle" || a == "bottom") n.verticalAlign
  | .button =>
      reqOk (fun _ => true) n.label && reqOk colorHexOk n.fill &&
      optOk colorHexOk n.stroke && optOk (fun w => w ≥ 0) n.strokeWidth &&
      optOk (fun r => r ≥ 0) n.cornerRadius &&
      reqOk (fun s => 8 ≤ s && s ≤ 72) n.fontSize &&
      reqOk (fun f => f != "") n.fontFamily && reqOk (fun _ => true) n.fontWeight &&
      reqOk colorHexOk n.textFill
  | .image =>
      reqOk urlOk n.src && optOk (fun r => r ≥ 0) n.cornerRadius

/-- The union `OpSchema = z.discriminatedUnion('t', [...])` from `schemas.ts`.  The
union lists exactly four branches — `add`, `update`, `remove`, `reorder` —
so a payload whose `t` is `reparent`, `addChild` or `removeChild` matches no
branch and fails.  `update.patch` is `z.record(z.any())`, which accepts any
patch object. -/
def opSchemaOk : Op → Bool
  | .add node => nodeSchemaOk node
  | .update id _ => id != ""
  | .remove id => id != ""
  | .reorder id _ => id != ""
  | .reparent _ _ => false
  | .addChild _ _ => false
  | .removeChild _ _ => false

/-- The entry point `validateOps(json) = OpsSchema.parse(json)` where
`OpsSchema = z.array(OpSchema)`: every element must validate, otherwise the
whole batch throws (`none`). -/
def validateOps (ops : List Op) : Option (List Op) :=
  if ops.all opSchemaOk then some ops else none

/-! ## Document store (`apps/server/src/store.ts`)

The three private `Map`s of the `Store` class are embedded as functions into
`Option`; the WebSocket `Set` as a duplicate-free list.  A socket is a value
whose `send` either succeeds or throws; the broadcast loop only observes
which, so a socket is its identity plus that bit. -/

/-- A subscriber channel: `send` throws iff `broken`. -/
structure WS where
  wsId : Nat
  broken : Bool
deriving DecidableEq, Repr

/-- The `Store` class state. -/
structure Store where
  docs : String → Option Doc
  opLogs : String → Option (List Op)
  subscribers : String → Option (List WS)

/-- The constructor `new Store()`: all maps empty. -/
def Store.emptyStore : Store :=
  { docs := fun _ => none, opLogs := fun _ => none, subscribers := fun _ => none }

/-- The method `createDoc(doc)`: register the snapshot and an empty op log. -/
def Store.createDoc (s : Store) (doc : Doc) : Store :=
  { s with
    docs := fun k => if k = doc.id then some doc else s.docs k
    opLogs := fun k => if k = doc.id then some [] else s.opLogs k }

/-- The method `updateDoc(doc)`: replace the snapshot. -/
def Store.updateDoc (s : Store) (doc : Doc) : Store :=
  { s with docs := fun k => if k = doc.id then some doc else s.docs k }

/-- The method `appendOps(docId, ops)`: `existing = get(docId) || []`, then store
`[...existing, ...ops]`. -/
def Store.appendOps (s : Store) (docId : String) (ops : List Op) : Store :=
  let existingOps := (s.opLogs docId).getD []
  { s with opLogs := fun k => if k = docId then some (existingOps ++ ops) else s.opLogs k }

/-- The method `getOpsSince(docId, version) = (get(docId) || []).slice(version)`. -/
def Store.getOpsSince (s : Store) (docId : String) (version : Nat) : List Op :=
  ((s.opLogs docId).getD []).drop version

/-- One iteration of the `subs.forEach` loop in `broadcast`: a successful
`send` delivers the serialized message, a throwing `send` is caught and the
socket deleted from the subscriber set. -/
def bstep (msg : String) (acc : List WS × List (WS × String)) (ws : WS) :
    List WS × List (WS × String) :=
  if ws.broken then (acc.1.erase ws, acc.2) else (acc.1, acc.2 ++ [(ws, msg)])

/-- The method `broadcast(docId, message)` from `store.ts`: look up the subscriber set;
iterate it, sending to each socket, dropping any whose `send` throws.
Returns the updated store and the list of successful deliveries.  (JS
`Set.forEach` visits the elements present at loop start; only the current
element is ever deleted, so the visited sequence is the original set.) -/
def Store.broadcast (s : Store) (docId : String) (msg : String) :
    Store × List (WS × String) :=
  match s.subscribers docId with
  | none => (s, [])
  | some subs =>
    let r := subs.foldl (bstep msg) (subs, [])
    ({ s with subscribers := fun k => if k = docId then some r.1 else s.subscribers k }, r.2)

/-! ## Auxiliary definitions and concrete fixtures -/

/-- The node id an operation targets — the id whose lookup failure makes the
operation a no-op in `applyOp` (`add` targets nothing: it never looks a node
up). -/
def opTarget : Op → Option String
  | .add _ => none
  | .update id _ => some id
  | .remove id => some id
  | .reorder id _ => some id
  | .reparent id _ => some id
  | .addChild parentId _ => some parentId
  | .removeChild parentId _ => some parentId

/-- A plain rectangle node used by the concrete fixtures. -/
def rectA : Node :=
  { id := "a", type := .rect, x := 0, y := 0, width := 100, height := 100,
    fill := some "#ff0000" }

/-- An empty fresh document (version 0), as `newDoc` produces. -/
def docEmpty : Doc :=
  { id := "d", width := 800, height := 600, nodes := [], version := 0,
    schemaVersion := 1, createdAt := "t0", updatedAt := "t0" }

/-- A container listing one child, the shape `groupNodes` leaves behind. -/
def groupG : Node :=
  { id := "g", type := .rect, x := 0, y := 0, width := 140, height := 140,
    fill := some "transparent", children := some ["a"] }

/-- The listed child of `groupG`. -/
def childA : Node :=
  { id := "a", type := .rect, x := 20, y := 20, width := 100, height := 100,
    fill := some "#ff0000", parentId := some "g" }

/-- A two-node document: container `g` with child `a`. -/
def docGroup : Doc :=
  { id := "d", width := 800, height := 600, nodes := [groupG, childA], version := 2,
    schemaVersion := 1, createdAt := "t0", updatedAt := "t0" }

/-- A consistent two-node forest: parent `p` listing child `c`. -/
def docForest : Doc :=
  { id := "d", width := 800, height := 600,
    nodes :=
      [{ id := "p", type := .rect, x := 0, y := 0, width := 200, height := 200,
         children := some ["c"] },
       { id := "c", type := .rect, x := 10, y := 10, width := 50, height := 50,
         parentId := some "p" }],
    version := 0, schemaVersion := 1, createdAt := "t0", updatedAt := "t0" }

/-- Rank (depth) function witnessing that `docForest` is acyclic. -/
def rankForest : String → Nat := fun s => if s = "p" then 0 else 1

/-- A one-node document used for the dangling-reference fixture. -/
def docSingle : Doc :=
  { id := "d", width := 800, height := 600, nodes := [rectA], version := 1,
    schemaVersion := 1, createdAt := "t0", updatedAt := "t0" }

/-- Three subscriber sockets; the second one's `send` throws. -/
def wsOk1 : WS := { wsId := 1, broken := false }

/-- The broken socket. -/
def wsBad : WS := { wsId := 2, broken := true }

/-- Another healthy socket, subscribed after the broken one. -/
def wsOk2 : WS := { wsId := 3, broken := false }

/-- A store with three subscribers on document `d`. -/
def storeSubs : Store :=
  { docs := fun _ => none, opLogs := fun _ => none,
    subscribers := fun k => if k = "d" then some [wsOk1, wsBad, wsOk2] else none }

/-! ## Hierarchy relations and the forest invariant

`ReachC` is the spec's notion of descendant: transitive reachability through
`children` lists.  `ReachP` is reachability up `parentId` links (what
`isAncestor` climbs).  `Forest` is the documented invariant — unique nonempty
ids, children lists and parent pointers in agreement — together with a rank
function witnessing acyclicity (each listed child sits one level below its
parent, ranks bounded by the node count; for an acyclic, consistent document
the depth function is such a rank). -/

/-- Node `b` is transitively reachable from `a` through `children` lists. -/
inductive ReachC (nodes : List Node) : String → String → Prop where
  | child {a c : String} (na : Node) (hna : na ∈ nodes) (hid : na.id = a)
      (hc : c ∈ childrenD na) : ReachC nodes a c
  | tail {a c b : String} (na : Node) (hna : na ∈ nodes) (hid : na.id = a)
      (hc : c ∈ childrenD na) (h : ReachC nodes c b) : ReachC nodes a b

/-- Node `a` is an ancestor of `b` along `parentId` links. -/
inductive ReachP (nodes : List Node) : String → String → Prop where
  | parent {a b : String} (nb : Node) (hnb : nb ∈ nodes) (hid : nb.id = b)
      (hp : nb.parentId = some a) : ReachP nodes a b
  | grand {a p b : String} (nb : Node) (hnb : nb ∈ nodes) (hid : nb.id = b)
      (hp : nb.parentId = some p) (h : ReachP nodes a p) : ReachP nodes a b

/-- The consistent-forest invariant over a node list, with `rank` witnessing
acyclicity.  Unfolds to a decidable conjunction so concrete documents can be
checked by `decide`. -/
abbrev Forest (nodes : List Node) (rank : String → Nat) : Prop :=
  (nodes.map (fun n => n.id)).Nodup ∧
  (∀ nd ∈ nodes, nd.id ≠ "") ∧
  (∀ nd ∈ nodes, ∀ c ∈ childrenD nd,
    ∃ cn ∈ nodes, cn.id = c ∧ cn.parentId = some nd.id) ∧
  (∀ nd ∈ nodes, ∀ p, nd.parentId = some p →
    ∃ pn ∈ nodes, pn.id = p ∧ nd.id ∈ childrenD pn) ∧
  (∀ nd ∈ nodes, ∀ c ∈ childrenD nd, rank c = rank nd.id + 1) ∧
  (∀ nd ∈ nodes, rank nd.id < nodes.length)

/-! ### Generic list helpers -/

/-- A fold whose step never loses memberships keeps memberships. -/
theorem foldl_mem_mono {α β : Type} {f : List α → β → List α}
    (hstep : ∀ a c x, x ∈ a → x ∈ f a c) :
    ∀ (l : List β) (a : List α) (x : α), x ∈ a → x ∈ l.foldl f a := by
  intro l
  induction l with
  | nil => intro a x hx; simpa using hx
  | cons c rest ih =>
      intro a x hx
      simpa using ih (f a c) x (hstep a c x hx)

/-- If processing `c` always produces `x` and later steps keep memberships,
any fold over a list containing `c` produces `x`. -/
theorem foldl_mem_hit {α β : Type} {f : List α → β → List α} {c : β} {x : α}
    (hstep : ∀ a d y, y ∈ a → y ∈ f a d) (hx : ∀ a, x ∈ f a c) :
    ∀ (l : List β) (a : List α), c ∈ l → x ∈ l.foldl f a := by
  intro l
  induction l with
  | nil => intro a hc; simp at hc
  | cons d rest ih =>
      intro a hc
      rcases List.mem_cons.mp hc with h | h
      · subst h
        simpa using foldl_mem_mono hstep rest (f a c) x (hx a)
      · simpa using ih (f a d) h

/-- Everything a fold adds beyond the accumulator is accounted to some
element of the list, given a step-level account. -/
theorem foldl_mem_sound {α β : Type} {f : List α → β → List α} {Q : β → α → Prop}
    (hstep : ∀ a c y, y ∈ f a c → y ∈ a ∨ Q c y) :
    ∀ (l : List β) (a : List α) (y : α), y ∈ l.foldl f a → y ∈ a ∨ ∃ c ∈ l, Q c y := by
  intro l
  induction l with
  | nil => intro a y hy; simp at hy; exact Or.inl hy
  | cons c rest ih =>
      intro a y hy
      simp only [List.foldl_cons] at hy
      rcases ih (f a c) y hy with h | ⟨d, hd, hq⟩
      · rcases hstep a c y h with h' | hq
        · exact Or.inl h'
        · exact Or.inr ⟨c, List.mem_cons_self c rest, hq⟩
      · exact Or.inr ⟨d, List.mem_cons_of_mem c hd, hq⟩

/-- Splitting a list's length by a boolean predicate. -/
theorem length_filter_split {α : Type} (p : α → Bool) (l : List α) :
    (l.filter p).length + (l.filter (fun x => !(p x))).length = l.length := by
  induction l with
  | nil => simp
  | cons x rest ih =>
      by_cases hx : p x
      · simp only [List.filter_cons, hx, Bool.not_true, if_pos, List.length_cons, List.length]
        simp only [show (!true) = false from rfl, Bool.false_eq_true, if_neg, ite_false]
        omega
      · have hx' : p x = false := by simpa using hx
        simp only [List.filter_cons, hx', Bool.not_false, List.length_cons]
        simp only [Bool.false_eq_true, ite_false, ite_true, List.length_cons]
        omega

/-- Filtering by a disjunction of pointwise-exclusive predicates splits the
count. -/
theorem length_filter_or_disjoint {α : Type} (p q : α → Bool) (l : List α)
    (h : ∀ x ∈ l, ¬(p x = true ∧ q x = true)) :
    (l.filter (fun x => p x || q x)).length = (l.filter p).length + (l.filter q).length := by
  induction l with
  | nil => simp
  | cons x rest ih =>
      have hrest := ih (fun y hy => h y (List.mem_cons_of_mem x hy))
      have hx := h x (List.mem_cons_self x rest)
      by_cases hp : p x
      · have hq : q x = false := by
          cases hqv : q x with
          | false => rfl
          | true => exact absurd ⟨hp, hqv⟩ hx
        simp only [List.filter_cons, hp, hq, Bool.true_or, List.length_cons, ite_true,
          Bool.false_eq_true, ite_false]
        omega
      · have hp' : p x = false := by simpa using hp
        by_cases hq : q x
        · simp only [List.filter_cons, hp', hq, Bool.false_or, List.length_cons, ite_true,
            Bool.false_eq_true, ite_false]
          omega
        · have hq' : q x = false := by simpa using hq
          simp only [List.filter_cons, hp', hq', Bool.false_or, Bool.false_eq_true, ite_false]
          omega

/-- In a list with duplicate-free ids, the nodes carrying a present id are
counted exactly once. -/
theorem length_filter_unique_id (nodes : List Node) (a : String)
    (hnodup : (nodes.map (fun n => n.id)).Nodup) (ha : a ∈ nodes.map (fun n => n.id)) :
    (nodes.filter (fun n => n.id == a)).length = 1 := by
  induction nodes with
  | nil => simp at ha
  | cons x rest ih =>
      simp only [List.map_cons, List.nodup_cons] at hnodup
      by_cases hx : x.id = a
      · have hnone : rest.filter (fun n => n.id == a) = [] := by
          apply List.filter_eq_nil_iff.mpr
          intro n hn
          simp only [beq_iff_eq]
          intro hna
          exact hnodup.1 (by
            rw [hx, ← hna]
            exact List.mem_map_of_mem (fun n => n.id) hn)
        simp [List.filter_cons, hx, hnone]
      · have ha' : a ∈ rest.map (fun n => n.id) := by
          rcases List.mem_map.mp ha with ⟨n, hn, hna⟩
          rcases List.mem_cons.mp hn with h | h
          · exact absurd (h ▸ hna) hx
          · exact hna ▸ List.mem_map_of_mem (fun n => n.id) h
        simp [List.filter_cons, hx, ih hnodup.2 ha']

/-- Two members of a duplicate-free-id node list with the same id are the
same node. -/
theorem id_unique {nodes : List Node} (hnodup : (nodes.map (fun n => n.id)).Nodup)
    {x y : Node} (hx : x ∈ nodes) (hy : y ∈ nodes) (hxy : x.id = y.id) : x = y :=
  List.inj_on_of_nodup_map hnodup hx hy hxy

/-- An id present among the node ids is found by `find?`, and the hit is the
unique carrier of that id. -/
theorem find_of_mem_ids {nodes : List Node} {a : String}
    (ha : a ∈ nodes.map (fun n => n.id)) :
    ∃ nd, nodes.find? (fun n => n.id == a) = some nd ∧ nd ∈ nodes ∧ nd.id = a := by
  rcases List.mem_map.mp ha with ⟨n, hn, hna⟩
  have hsome : (nodes.find? (fun n => n.id == a)).isSome := by
    rw [List.find?_isSome]
    exact ⟨n, hn, by simpa using hna⟩
  rcases Option.isSome_iff_exists.mp hsome with ⟨nd, hnd⟩
  exact ⟨nd, hnd, List.mem_of_find?_eq_some hnd, by simpa using List.find?_some hnd⟩

/-! ### Forest lemmas -/

section ForestLemmas

variable {nodes : List Node} {rank : String → Nat}

/-- A child listed somewhere is itself a node of the document. -/
theorem child_mem_ids (hf : Forest nodes rank) {nd : Node} (hnd : nd ∈ nodes)
    {c : String} (hc : c ∈ childrenD nd) : c ∈ nodes.map (fun n => n.id) := by
  obtain ⟨-, -, h3, -⟩ := hf
  rcases h3 nd hnd c hc with ⟨cn, hcn, hcid, -⟩
  exact hcid ▸ List.mem_map_of_mem (fun n => n.id) hcn

/-- A declared parent link descends one rank: the child's rank is the
parent's plus one. -/
theorem rank_of_parent (hf : Forest nodes rank) {nd : Node} (hnd : nd ∈ nodes)
    {p : String} (hp : nd.parentId = some p) : rank nd.id = rank p + 1 := by
  obtain ⟨-, -, -, h4, h5, -⟩ := hf
  rcases h4 nd hnd p hp with ⟨pn, hpn, hpid, hmem⟩
  have := h5 pn hpn nd.id hmem
  rw [this, hpid]

/-- A declared parent is a node of the document with a nonempty id. -/
theorem parent_mem (hf : Forest nodes rank) {nd : Node} (hnd : nd ∈ nodes)
    {p : String} (hp : nd.parentId = some p) :
    p ∈ nodes.map (fun n => n.id) ∧ p ≠ "" := by
  obtain ⟨-, h2, -, h4, -⟩ := hf
  rcases h4 nd hnd p hp with ⟨pn, hpn, hpid, -⟩
  exact ⟨hpid ▸ List.mem_map_of_mem (fun n => n.id) hpn, hpid ▸ h2 pn hpn⟩

/-- Ranks strictly increase along children-list reachability. -/
theorem reachC_rank_lt (hf : Forest nodes rank) {a b : String}
    (h : ReachC nodes a b) : rank a < rank b := by
  induction h with
  | @child a c na hna hid hc =>
      have h5 := hf.2.2.2.2.1 na hna c hc
      rw [hid] at h5
      omega
  | @tail a c b na hna hid hc h ih =>
      have h5 := hf.2.2.2.2.1 na hna c hc
      rw [hid] at h5
      omega

/-- A node is never its own descendant. -/
theorem reachC_ne (hf : Forest nodes rank) {a b : String}
    (h : ReachC nodes a b) : b ≠ a := by
  intro hba
  have := reachC_rank_lt hf h
  rw [hba] at this
  omega

/-- Children-list reachability is transitive. -/
theorem reachC_trans {a m b : String} (h1 : ReachC nodes a m)
    (h2 : ReachC nodes m b) : ReachC nodes a b := by
  induction h1 with
  | child na hna hid hc => exact ReachC.tail na hna hid hc h2
  | tail na hna hid hc h ih => exact ReachC.tail na hna hid hc (ih h2)

/-- Parent-link reachability is transitive. -/
theorem reachP_trans {a m b : String} (h1 : ReachP nodes a m)
    (h2 : ReachP nodes m b) : ReachP nodes a b := by
  induction h2 with
  | parent nb hnb hid hp => exact ReachP.grand nb hnb hid hp h1
  | grand nb hnb hid hp h ih => exact ReachP.grand nb hnb hid hp ih

/-- One parent link, read downward through the agreement invariant, is a
children-list step. -/
theorem reachC_of_parent_link (hf : Forest nodes rank) {nb : Node}
    (hnb : nb ∈ nodes) {p : String} (hp : nb.parentId = some p) :
    ReachC nodes p nb.id := by
  obtain ⟨-, -, -, h4, -⟩ := hf
  rcases h4 nb hnb p hp with ⟨pn, hpn, hpid, hmem⟩
  exact ReachC.child pn hpn hpid hmem

/-- One children-list entry, read upward through the agreement invariant, is
a parent link. -/
theorem reachP_of_child_link (hf : Forest nodes rank) {na : Node}
    (hna : na ∈ nodes) {c : String} (hc : c ∈ childrenD na) :
    ReachP nodes na.id c := by
  obtain ⟨-, -, h3, -⟩ := hf
  rcases h3 na hna c hc with ⟨cn, hcn, hcid, hcp⟩
  exact ReachP.parent cn hcn hcid hcp

/-- In a consistent forest the two reachability notions agree. -/
theorem reachC_iff_reachP (hf : Forest nodes rank) {a b : String} :
    ReachC nodes a b ↔ ReachP nodes a b := by
  constructor
  · intro h
    induction h with
    | child na hna hid hc => exact hid ▸ reachP_of_child_link hf hna hc
    | tail na hna hid hc h ih =>
        exact reachP_trans (hid ▸ reachP_of_child_link hf hna hc) ih
  · intro h
    induction h with
    | parent nb hnb hid hp => exact hid ▸ reachC_of_parent_link hf hnb hp
    | grand nb hnb hid hp h ih =>
        exact reachC_trans ih (hid ▸ reachC_of_parent_link hf hnb hp)

/-- Soundness: `isAncestorGo` only answers `true` along real parent chains. -/
theorem isAncestorGo_sound : ∀ (fuel : Nat) (a b : String),
    isAncestorGo nodes fuel a b = true → ReachP nodes a b := by
  intro fuel
  induction fuel with
  | zero => intro a b h; simp [isAncestorGo] at h
  | succ f ih =>
      intro a b h
      simp only [isAncestorGo] at h
      split at h
      · simp at h
      · rename_i nb hfind
        have hnb : nb ∈ nodes := List.mem_of_find?_eq_some hfind
        have hid : nb.id = b := by simpa using List.find?_some hfind
        split at h
        · simp at h
        · rename_i p hpar
          by_cases hpe : p = ""
          · rw [if_pos hpe] at h; simp at h
          · rw [if_neg hpe] at h
            by_cases hpa : p = a
            · exact ReachP.parent nb hnb hid (hpa ▸ hpar)
            · rw [if_neg hpa] at h
              exact ReachP.grand nb hnb hid hpar (ih a p h)

/-- With fuel above the start node's rank, `isAncestorGo` finds every real
parent chain. -/
theorem isAncestorGo_complete (hf : Forest nodes rank) {a b : String}
    (h : ReachP nodes a b) :
    ∀ fuel : Nat, rank b < fuel → isAncestorGo nodes fuel a b = true := by
  induction h with
  | @parent b nb hnb hid hp =>
      intro fuel hfuel
      cases fuel with
      | zero => omega
      | succ f =>
          have hbids : b ∈ nodes.map (fun n => n.id) :=
            hid ▸ List.mem_map_of_mem (fun n => n.id) hnb
          rcases find_of_mem_ids hbids with ⟨nd, hfind, hndmem, hndid⟩
          have hnd : nd = nb := id_unique hf.1 hndmem hnb (hndid.trans hid.symm)
          subst hnd
          have hane : ¬(a = "") := (parent_mem hf hnb hp).2
          simp [isAncestorGo, hfind, hp, hane]
  | @grand p b nb hnb hid hp h ih =>
      intro fuel hfuel
      cases fuel with
      | zero => omega
      | succ f =>
          have hbids : b ∈ nodes.map (fun n => n.id) :=
            hid ▸ List.mem_map_of_mem (fun n => n.id) hnb
          rcases find_of_mem_ids hbids with ⟨nd, hfind, hndmem, hndid⟩
          have hnd : nd = nb := id_unique hf.1 hndmem hnb (hndid.trans hid.symm)
          subst hnd
          have hpe : ¬(p = "") := (parent_mem hf hnb hp).2
          simp only [isAncestorGo, hfind, hp]
          rw [if_neg hpe]
          by_cases hpa : p = a
          · rw [if_pos hpa]
          · rw [if_neg hpa]
            apply ih
            have hrank := rank_of_parent hf hnb hp
            rw [hid] at hrank
            omega

end ForestLemmas

/-! ### `collectRemove` lemmas -/

section CollectLemmas

variable {nodes : List Node} {rank : String → Nat}

/-- The traversal never drops what is already in the accumulator. -/
theorem collectRemove_mono : ∀ (fuel : Nat) (n : String) (acc : List String) (x : String),
    x ∈ acc → x ∈ collectRemove nodes fuel n acc := by
  intro fuel
  induction fuel with
  | zero => intro n acc x hx; simpa [collectRemove] using hx
  | succ f ih =>
      intro n acc x hx
      have hacc1 : ∀ (m : String) (acc' : List String), x ∈ acc' →
          x ∈ (if m ∈ acc' then acc' else acc' ++ [m]) := by
        intro m acc' hx'
        by_cases hm : m ∈ acc'
        · simpa [hm] using hx'
        · simp [hm, List.mem_append]
          exact Or.inl hx'
      simp only [collectRemove]
      split
      · exact foldl_mem_mono (fun a c y hy => ih c a y hy) _ _ x (hacc1 n acc hx)
      · exact hacc1 n acc hx

/-- The start node is always collected (with positive fuel). -/
theorem collectRemove_self {fuel : Nat} (hfuel : 0 < fuel) (n : String) (acc : List String) :
    n ∈ collectRemove nodes fuel n acc := by
  cases fuel with
  | zero => omega
  | succ f =>
      have hacc1 : n ∈ (if n ∈ acc then acc else acc ++ [n]) := by
        by_cases hm : n ∈ acc
        · rw [if_pos hm]; exact hm
        · simp [hm]
      simp only [collectRemove]
      split
      · exact foldl_mem_mono (fun a c y hy => collectRemove_mono f c a y hy) _ _ n hacc1
      · exact hacc1

/-- Everything collected is the start node, old accumulator content, or a
node reachable from the start through children lists. -/
theorem collectRemove_sound : ∀ (fuel : Nat) (n : String) (acc : List String) (b : String),
    b ∈ collectRemove nodes fuel n acc → b ∈ acc ∨ b = n ∨ ReachC nodes n b := by
  intro fuel
  induction fuel with
  | zero => intro n acc b hb; simp [collectRemove] at hb; exact Or.inl hb
  | succ f ih =>
      intro n acc b hb
      have hacc1 : ∀ m acc', b ∈ (if m ∈ acc' then acc' else acc' ++ [m]) →
          b ∈ acc' ∨ b = m := by
        intro m acc' hbm
        by_cases hm : m ∈ acc'
        · rw [if_pos hm] at hbm; exact Or.inl hbm
        · rw [if_neg hm] at hbm
          rcases List.mem_append.mp hbm with h | h
          · exact Or.inl h
          · simp at h; exact Or.inr h
      simp only [collectRemove] at hb
      split at hb
      · rename_i node hfind
        have hnode : node ∈ nodes := List.mem_of_find?_eq_some hfind
        have hnid : node.id = n := by simpa using List.find?_some hfind
        rcases foldl_mem_sound (Q := fun c y => y = c ∨ ReachC nodes c y)
            (fun a c y hy => by
              rcases ih c a y hy with h | h | h
              · exact Or.inl h
              · exact Or.inr (Or.inl h)
              · exact Or.inr (Or.inr h))
            (childrenD node) _ b hb with h | ⟨c, hc, hq⟩
        · rcases hacc1 n acc h with h' | h'
          · exact Or.inl h'
          · exact Or.inr (Or.inl h')
        · rcases hq with h' | h'
          · exact Or.inr (Or.inr (h' ▸ ReachC.child node hnode hnid hc))
          · exact Or.inr (Or.inr (ReachC.tail node hnode hnid hc h'))
      · rcases hacc1 n acc hb with h' | h'
        · exact Or.inl h'
        · exact Or.inr (Or.inl h')

/-- With enough fuel relative to the start node's rank, every node reachable
through children lists is collected.  The fuel budget only shrinks as the
rank grows, which is what makes the induction go through. -/
theorem collectRemove_complete (hf : Forest nodes rank) {a b : String}
    (h : ReachC nodes a b) :
    ∀ (fuel : Nat) (acc : List String), nodes.length + 1 ≤ fuel + rank a →
      b ∈ collectRemove nodes fuel a acc := by
  induction h with
  | @child a c na hna hid hc =>
      intro fuel acc hfuel
      have hrka : rank a < nodes.length := hid ▸ hf.2.2.2.2.2 na hna
      cases fuel with
      | zero => omega
      | succ f =>
          have haids : a ∈ nodes.map (fun n => n.id) :=
            hid ▸ List.mem_map_of_mem (fun n => n.id) hna
          rcases find_of_mem_ids haids with ⟨nd, hfind, hndmem, hndid⟩
          have hnd : nd = na := id_unique hf.1 hndmem hna (hndid.trans hid.symm)
          subst hnd
          simp only [collectRemove, hfind]
          have hcids : c ∈ nodes.map (fun n => n.id) := child_mem_ids hf hndmem hc
          have hrkc : rank c < nodes.length := by
            rcases List.mem_map.mp hcids with ⟨cn, hcn, hcid⟩
            exact hcid ▸ hf.2.2.2.2.2 cn hcn
          have hrkc' : rank c = rank a + 1 := by
            have := hf.2.2.2.2.1 nd hndmem c hc
            rw [hndid] at this; exact this
          have hfpos : 0 < f := by omega
          exact foldl_mem_hit (fun ac d y hy => collectRemove_mono f d ac y hy)
            (fun ac => collectRemove_self hfpos c ac) (childrenD nd) _ hc
  | @tail a c b na hna hid hc h ih =>
      intro fuel acc hfuel
      have hrka : rank a < nodes.length := hid ▸ hf.2.2.2.2.2 na hna
      cases fuel with
      | zero => omega
      | succ f =>
          have haids : a ∈ nodes.map (fun n => n.id) :=
            hid ▸ List.mem_map_of_mem (fun n => n.id) hna
          rcases find_of_mem_ids haids with ⟨nd, hfind, hndmem, hndid⟩
          have hnd : nd = na := id_unique hf.1 hndmem hna (hndid.trans hid.symm)
          subst hnd
          simp only [collectRemove, hfind]
          have hrkc' : rank c = rank a + 1 := by
            have := hf.2.2.2.2.1 nd hndmem c hc
            rw [hndid] at this; exact this
          exact foldl_mem_hit (fun ac d y hy => collectRemove_mono f d ac y hy)
            (fun ac => ih f ac (by omega)) (childrenD nd) _ hc

/-- The removal set computed by `applyOp`'s `remove` case is exactly the
target plus its children-list descendants. -/
theorem collectRemove_spec (hf : Forest nodes rank) (n : String) (b : String) :
    b ∈ collectRemove nodes (nodes.length + 1) n [] ↔ (b = n ∨ ReachC nodes n b) := by
  constructor
  · intro hb
    rcases collectRemove_sound (nodes.length + 1) n [] b hb with h | h
    · simp at h
    · exact h
  · intro hb
    rcases hb with h | h
    · subst h
      exact collectRemove_self (Nat.succ_pos _) b []
    · exact collectRemove_complete hf h (nodes.length + 1) [] (by omega)

end CollectLemmas

/-! ### Small `applyOp` helpers -/

/-- Unfolding: `applyOp` only rewrites the node list through `applyOpNodes`. -/
theorem applyOp_nodes (now : String) (doc : Doc) (op : Op) :
    (applyOp now doc op).nodes = applyOpNodes doc.nodes op := rfl

/-- Every `applyOp` call increments the version by exactly one. -/
theorem applyOp_version (now : String) (doc : Doc) (op : Op) :
    (applyOp now doc op).version = doc.version + 1 := rfl

/-- Mapping a function that fixes every member is the identity. -/
theorem map_id_of_mem {α : Type} {l : List α} {f : α → α} (h : ∀ x ∈ l, f x = x) :
    l.map f = l := by
  induction l with
  | nil => rfl
  | cons x rest ih =>
      simp only [List.map_cons, h x (List.mem_cons_self x rest),
        ih (fun y hy => h y (List.mem_cons_of_mem x hy))]

/-- Filtering by a predicate that holds on every member is the identity. -/
theorem filter_eq_self_of_mem {α : Type} {l : List α} {p : α → Bool}
    (h : ∀ x ∈ l, p x = true) : l.filter p = l := by
  induction l with
  | nil => rfl
  | cons x rest ih =>
      simp only [List.filter_cons, h x (List.mem_cons_self x rest), ite_true]
      rw [ih (fun y hy => h y (List.mem_cons_of_mem x hy))]

/-! ## Claim theorems -/

/-- C1, counterexample.  The claim says `applyOps` returns
`d.version + 1` for every non-empty batch; a two-operation batch on the
fresh document already lands at version 2, not 1. -/
theorem applyOps_version_plus_one_false :
    ¬ ((applyOps "t1" docEmpty [Op.reorder "x" 1, Op.reorder "x" 2]).version
        = docEmpty.version + 1) := by
  decide

/-- C1, amended.  `applyOps` folds `applyOp`, and each `applyOp` call
increments the version, so a batch of `k` operations lands at
`d.version + k` (hence `d.version + 1` only for singleton batches). -/
theorem applyOps_version_adds_length (now : String) (doc : Doc) (ops : List Op) :
    (applyOps now doc ops).version = doc.version + ops.length := by
  induction ops generalizing doc with
  | nil => simp [applyOps]
  | cons op rest ih =>
      have h := ih (applyOp now doc op)
      simp only [applyOps, List.foldl_cons] at h ⊢
      rw [h, applyOp_version, List.length_cons]
      omega

/-- C2 (code bug).  Ungrouping the container `g` whose children list is
`["a"]`: the emitted batch is one `reparent`-to-root for `a` followed by
`remove g`, but applying it deletes `a` as well — the `remove` cascades
through `g`'s still-intact children list, so the resulting node set is
empty instead of retaining the reparented child. -/
theorem ungroup_removes_children :
    ungroupNodes docGroup "g" = some [Op.reparent "a" none, Op.remove "g"] ∧
    (applyOps "t1" docGroup [Op.reparent "a" none, Op.remove "g"]).nodes = [] := by
  constructor
  · decide
  · decide

/-- C3 (code bug).  `validateOps` (the zod `OpsSchema`) rejects a batch
holding a well-formed `reparent`, `addChild` or `removeChild` operation —
the discriminated union in `schemas.ts` only lists `add`, `update`,
`remove`, `reorder` — while accepting those four variants; rejection is
all-or-nothing (a valid `remove` does not survive a batch with a
`reparent`). -/
theorem validateOps_rejects_hierarchy_ops :
    validateOps [Op.reparent "a" none] = none ∧
    validateOps [Op.addChild "g" "a"] = none ∧
    validateOps [Op.removeChild "g" "a"] = none ∧
    validateOps [Op.remove "a", Op.reparent "a" none] = none ∧
    validateOps [Op.remove "a", Op.reorder "a" 3] =
      some [Op.remove "a", Op.reorder "a" 3] := by
  decide

/-- C8 (code bug).  The only color grammar in `schemas.ts` is
`/^#[0-9A-Fa-f]{6}$/`: `"transparent"` is rejected — including as a rect
fill, although `createGroupNode` itself defaults a container's fill to
`'transparent'` — and no named color passes, while six-digit hex does. -/
theorem colorHex_rejects_transparent :
    colorHexOk "transparent" = false ∧
    colorHexOk "red" = false ∧
    colorHexOk "#ff0000" = true ∧
    nodeSchemaOk groupG = false ∧
    nodeSchemaOk rectA = true := by
  decide

/-- C10.  `applyOp`'s `add` case appends unconditionally: adding a node
whose id `a` already occurs in a document with pairwise-distinct ids yields
a document with two nodes of id `a` — the uniqueness invariant is not
preserved. -/
theorem add_duplicates_id :
    (docSingle.nodes.map (fun n => n.id)).Nodup ∧
    ¬ (((applyOp "t1" docSingle (Op.add rectA)).nodes.map (fun n => n.id)).Nodup) := by
  decide

/-- C6.  For every validated operation other than `add`, if the id the
operation targets matches no node of the document, `applyOp` leaves the
node list unchanged — a silent no-op, not an error. -/
theorem applyOp_missing_target_noop (now : String) (doc : Doc) (op : Op) (t : String)
    (htarget : opTarget op = some t)
    (hmissing : ∀ nd ∈ doc.nodes, nd.id ≠ t) :
    (applyOp now doc op).nodes = doc.nodes := by
  rw [applyOp_nodes]
  cases op with
  | add node => simp [opTarget] at htarget
  | update id patch =>
      simp only [opTarget, Option.some.injEq] at htarget
      subst htarget
      exact map_id_of_mem (fun n hn => by rw [if_neg (hmissing n hn)])
  | remove id =>
      simp only [opTarget, Option.some.injEq] at htarget
      subst htarget
      have hfind : doc.nodes.find? (fun n => n.id == id) = none :=
        List.find?_eq_none.mpr (fun n hn => by simpa using hmissing n hn)
      have hcoll : collectRemove doc.nodes (doc.nodes.length + 1) id [] = [id] := by
        simp [collectRemove, hfind]
      simp only [applyOpNodes, hcoll]
      apply filter_eq_self_of_mem
      intro n hn
      have hne : (n.id == id) = false := by simpa using hmissing n hn
      simp [List.contains, hne]
      exact hmissing n hn
  | reorder id z =>
      simp only [opTarget, Option.some.injEq] at htarget
      subst htarget
      exact map_id_of_mem (fun n hn => by rw [if_neg (hmissing n hn)])
  | reparent id parentId =>
      simp only [opTarget, Option.some.injEq] at htarget
      subst htarget
      exact map_id_of_mem (fun n hn => by rw [if_neg (hmissing n hn)])
  | addChild parentId childId =>
      simp only [opTarget, Option.some.injEq] at htarget
      subst htarget
      exact map_id_of_mem (fun n hn => by rw [if_neg (hmissing n hn)])
  | removeChild parentId childId =>
      simp only [opTarget, Option.some.injEq] at htarget
      subst htarget
      exact map_id_of_mem (fun n hn => by rw [if_neg (hmissing n hn)])

/-- Bridging: `isAncestor` decides children-list descendancy for the nodes of a
consistent forest. -/
theorem isAncestor_iff_reachC {doc : Doc} {rank : String → Nat}
    (hf : Forest doc.nodes rank) {a b : String} (hb : b ∈ doc.nodes.map (fun n => n.id)) :
    isAncestor doc a b = true ↔ ReachC doc.nodes a b := by
  constructor
  · intro h
    exact (reachC_iff_reachP hf).mpr (isAncestorGo_sound doc.nodes.length a b h)
  · intro h
    have hrank : rank b < doc.nodes.length := by
      rcases List.mem_map.mp hb with ⟨nb, hnb, hid⟩
      exact hid ▸ hf.2.2.2.2.2 nb hnb
    exact isAncestorGo_complete hf ((reachC_iff_reachP hf).mp h) doc.nodes.length hrank

/-- C5.  On a consistent forest, `canReparent(doc, A, B)` answers
`false` exactly when `B` is `A` itself or a descendant of `A` — the cycle
guard, for every tree shape. -/
theorem canReparent_false_iff (doc : Doc) (rank : String → Nat) (A B : String)
    (hf : Forest doc.nodes rank) (hB : B ∈ doc.nodes.map (fun n => n.id)) :
    canReparent doc A (some B) = false ↔ (B = A ∨ ReachC doc.nodes A B) := by
  have hBne : ¬(B = "") := by
    rcases List.mem_map.mp hB with ⟨nb, hnb, hid⟩
    exact hid ▸ hf.2.1 nb hnb
  simp only [canReparent]
  rw [if_neg hBne]
  by_cases hAB : A = B
  · rw [if_pos hAB]
    exact ⟨fun _ => Or.inl hAB.symm, fun _ => rfl⟩
  · rw [if_neg hAB]
    constructor
    · intro h
      have htrue : isAncestor doc A B = true := by
        cases hia : isAncestor doc A B with
        | true => rfl
        | false => rw [hia] at h; simp at h
      exact Or.inr ((isAncestor_iff_reachC hf hB).mp htrue)
    · intro h
      rcases h with h | h
      · exact absurd h.symm hAB
      · have htrue := (isAncestor_iff_reachC hf hB).mpr h
        rw [htrue]
        rfl

/-- C5, witness on the concrete two-node forest: reparenting `p` under
its own descendant `c` is refused. -/
theorem canReparent_false_iff_witness :
    Forest docForest.nodes rankForest ∧
    "c" ∈ docForest.nodes.map (fun n => n.id) ∧
    (canReparent docForest "p" (some "c") = false ↔
      ("c" = "p" ∨ ReachC docForest.nodes "p" "c")) :=
  ⟨by decide, by decide,
    canReparent_false_iff docForest rankForest "p" "c" (by decide) (by decide)⟩

/-- C4.  Removing a present node `n` from a consistent forest deletes
exactly `n` together with its children-list descendants: the node count
drops by one plus the number of distinct descendants (counted by the
source's own `isAncestor`), every unrelated node survives, and every node
of the removed set is gone. -/
theorem applyOp_remove_exact (now : String) (doc : Doc) (rank : String → Nat) (n : String)
    (hf : Forest doc.nodes rank) (hn : n ∈ doc.nodes.map (fun nd => nd.id)) :
    (applyOp now doc (Op.remove n)).nodes.length
        + (1 + (doc.nodes.filter (fun nd => isAncestor doc n nd.id)).length)
      = doc.nodes.length ∧
    (∀ nd ∈ doc.nodes, nd.id ≠ n → ¬ ReachC doc.nodes n nd.id →
      nd ∈ (applyOp now doc (Op.remove n)).nodes) ∧
    (∀ nd ∈ doc.nodes, (nd.id = n ∨ ReachC doc.nodes n nd.id) →
      nd ∉ (applyOp now doc (Op.remove n)).nodes) := by
  have hnodes : (applyOp now doc (Op.remove n)).nodes
      = doc.nodes.filter
          (fun nd => !((collectRemove doc.nodes (doc.nodes.length + 1) n []).contains nd.id)) :=
    rfl
  have hcont : ∀ nd : Node,
      (collectRemove doc.nodes (doc.nodes.length + 1) n []).contains nd.id = true ↔
        (nd.id = n ∨ ReachC doc.nodes n nd.id) := by
    intro nd
    rw [List.elem_iff]
    exact collectRemove_spec hf n nd.id
  refine ⟨?_, ?_, ?_⟩
  · have hsplit := length_filter_split
      (fun nd => (collectRemove doc.nodes (doc.nodes.length + 1) n []).contains nd.id) doc.nodes
    have hcongr : doc.nodes.filter
        (fun nd => (collectRemove doc.nodes (doc.nodes.length + 1) n []).contains nd.id)
        = doc.nodes.filter (fun nd => (nd.id == n) || isAncestor doc n nd.id) := by
      apply List.filter_congr
      intro nd hnd
      apply Bool.coe_iff_coe.mp
      rw [hcont nd]
      have hib : nd.id ∈ doc.nodes.map (fun m => m.id) :=
        List.mem_map_of_mem (fun m => m.id) hnd
      constructor
      · intro h
        rcases h with h | h
        · simp [h]
        · simp [(isAncestor_iff_reachC hf hib).mpr h]
      · intro h
        rcases Bool.or_eq_true_iff.mp h with h | h
        · exact Or.inl (by simpa using h)
        · exact Or.inr ((isAncestor_iff_reachC hf hib).mp h)
    have hdisj : (doc.nodes.filter (fun nd => (nd.id == n) || isAncestor doc n nd.id)).length
        = (doc.nodes.filter (fun nd => nd.id == n)).length
          + (doc.nodes.filter (fun nd => isAncestor doc n nd.id)).length := by
      apply length_filter_or_disjoint
      intro nd hnd ⟨h1, h2⟩
      have hib : nd.id ∈ doc.nodes.map (fun m => m.id) :=
        List.mem_map_of_mem (fun m => m.id) hnd
      have hreach := (isAncestor_iff_reachC hf hib).mp h2
      have hidn : nd.id = n := by simpa using h1
      rw [hidn] at hreach
      exact absurd rfl (reachC_ne hf hreach)
    have hone := length_filter_unique_id doc.nodes n hf.1 hn
    rw [hnodes]
    rw [hcongr, hdisj, hone] at hsplit
    omega
  · intro nd hnd hne hnr
    rw [hnodes]
    apply List.mem_filter.mpr
    refine ⟨hnd, ?_⟩
    have : (collectRemove doc.nodes (doc.nodes.length + 1) n []).contains nd.id = false := by
      cases hc : (collectRemove doc.nodes (doc.nodes.length + 1) n []).contains nd.id with
      | false => rfl
      | true =>
          rcases (hcont nd).mp hc with h | h
          · exact absurd h hne
          · exact absurd h hnr
    simp only [this]
    rfl
  · intro nd hnd hin hmem
    rw [hnodes] at hmem
    have hkeep := (List.mem_filter.mp hmem).2
    have := (hcont nd).mpr hin
    rw [this] at hkeep
    simp at hkeep

/-- C4, witness on the concrete two-node forest: removing `p` deletes
both `p` and its descendant `c`, and the count identity holds. -/
theorem applyOp_remove_exact_witness :
    Forest docForest.nodes rankForest ∧
    "p" ∈ docForest.nodes.map (fun nd => nd.id) ∧
    (applyOp "t1" docForest (Op.remove "p")).nodes.length
        + (1 + (docForest.nodes.filter (fun nd => isAncestor docForest "p" nd.id)).length)
      = docForest.nodes.length :=
  ⟨by decide, by decide,
    (applyOp_remove_exact "t1" docForest rankForest "p" (by decide) (by decide)).1⟩

/-- C6, witness at a concrete input: updating the missing id `zz` in a
one-node document leaves the node list untouched. -/
theorem applyOp_missing_target_noop_witness :
    opTarget (Op.update "zz" {}) = some "zz" ∧
    (∀ nd ∈ docSingle.nodes, nd.id ≠ "zz") ∧
    (applyOp "t1" docSingle (Op.update "zz" {})).nodes = docSingle.nodes :=
  ⟨by decide, by decide,
    applyOp_missing_target_noop "t1" docSingle (Op.update "zz" {}) "zz" rfl (by decide)⟩

/-- The node list produced by a batch is a fold of the per-operation node
rewrites — in particular it does not depend on the clock. -/
theorem applyOps_nodes_fold (now : String) (doc : Doc) (ops : List Op) :
    (applyOps now doc ops).nodes = ops.foldl applyOpNodes doc.nodes := by
  induction ops generalizing doc with
  | nil => rfl
  | cons op rest ih =>
      simp only [applyOps, List.foldl_cons] at ih ⊢
      rw [ih (applyOp now doc op), applyOp_nodes]

/-- Folding `appendOps` over a list of batches appends their concatenation
to the stored log. -/
theorem store_opLog_after_appends (docId : String) :
    ∀ (batches : List (List Op)) (s : Store),
      (((batches.foldl (fun st b => st.appendOps docId b) s).opLogs docId).getD [])
        = ((s.opLogs docId).getD []) ++ batches.flatten := by
  intro batches
  induction batches with
  | nil => intro s; simp
  | cons b rest ih =>
      intro s
      simp only [List.foldl_cons]
      rw [ih (s.appendOps docId b)]
      have h1 : ((s.appendOps docId b).opLogs docId).getD []
          = ((s.opLogs docId).getD []) ++ b := by
        simp [Store.appendOps]
      rw [h1, List.flatten_cons, List.append_assoc]

/-- C7.  A document whose history was built by appending each applied
batch (`appendOps` folded over the batches, starting from `createDoc`):
for every version `v` up to the current one, folding `applyOp` over
`getOpsSince(id, v)` starting from the snapshot as it stood at version `v`
(which really carries version `v`) reproduces the current snapshot's node
content — and version — exactly.  The replay clock `now2` may differ from
the original clock `now1`. -/
theorem catchup_complete (d0 : Doc) (batches : List (List Op)) (v : Nat)
    (now1 now2 : String) (h0 : d0.version = 0) (hv : v ≤ (batches.flatten).length) :
    ((applyOps now1 d0 ((batches.flatten).take v)).version = v) ∧
    ((applyOps now2 (applyOps now1 d0 ((batches.flatten).take v))
        ((batches.foldl (fun st b => st.appendOps d0.id b)
            (Store.emptyStore.createDoc d0)).getOpsSince d0.id v)).nodes
      = (applyOps now1 d0 batches.flatten).nodes) ∧
    ((applyOps now2 (applyOps now1 d0 ((batches.flatten).take v))
        ((batches.foldl (fun st b => st.appendOps d0.id b)
            (Store.emptyStore.createDoc d0)).getOpsSince d0.id v)).version
      = (applyOps now1 d0 batches.flatten).version) := by
  have hlog : (((batches.foldl (fun st b => st.appendOps d0.id b)
      (Store.emptyStore.createDoc d0)).opLogs d0.id).getD []) = batches.flatten := by
    rw [store_opLog_after_appends]
    simp [Store.createDoc, Store.emptyStore]
  have hsince : (batches.foldl (fun st b => st.appendOps d0.id b)
      (Store.emptyStore.createDoc d0)).getOpsSince d0.id v = (batches.flatten).drop v := by
    simp only [Store.getOpsSince, hlog]
  have htakelen : ((batches.flatten).take v).length = v := by
    rw [List.length_take]
    omega
  have hsnapv : (applyOps now1 d0 ((batches.flatten).take v)).version = v := by
    rw [applyOps_version_adds_length, h0, htakelen]
    omega
  refine ⟨hsnapv, ?_, ?_⟩
  · rw [hsince, applyOps_nodes_fold, applyOps_nodes_fold, applyOps_nodes_fold,
      ← List.foldl_append, List.take_append_drop]
  · rw [hsince, applyOps_version_adds_length, hsnapv,
      applyOps_version_adds_length, h0, List.length_drop]
    omega

/-- C7, witness at a concrete input: one appended single-operation
batch, catching up from version 0. -/
theorem catchup_complete_witness :
    docEmpty.version = 0 ∧
    0 ≤ ([[Op.reorder "x" 5]].flatten).length ∧
    ((applyOps "t2" (applyOps "t1" docEmpty (([[Op.reorder "x" 5]].flatten).take 0))
        (([[Op.reorder "x" 5]].foldl (fun st b => st.appendOps docEmpty.id b)
            (Store.emptyStore.createDoc docEmpty)).getOpsSince docEmpty.id 0)).nodes
      = (applyOps "t1" docEmpty [[Op.reorder "x" 5]].flatten).nodes) :=
  ⟨by decide, by decide,
    (catchup_complete docEmpty [[Op.reorder "x" 5]] 0 "t1" "t2" (by decide) (by decide)).2.1⟩

/-- The subscriber list carried through the broadcast fold: only the failing
sockets are erased. -/
theorem bfold_fst (msg : String) :
    ∀ (l r : List WS) (d : List (WS × String)),
      (l.foldl (bstep msg) (r, d)).1
        = l.foldl (fun r' w => if w.broken then r'.erase w else r') r := by
  intro l
  induction l with
  | nil => intro r d; rfl
  | cons w rest ih =>
      intro r d
      by_cases hb : w.broken
      · simp [bstep, hb, ih]
      · simp [bstep, hb, ih]

/-- The deliveries recorded by the broadcast fold: exactly one per healthy
socket, in subscription order. -/
theorem bfold_snd (msg : String) :
    ∀ (l r : List WS) (d : List (WS × String)),
      (l.foldl (bstep msg) (r, d)).2
        = d ++ (l.filter (fun w => !w.broken)).map (fun w => (w, msg)) := by
  intro l
  induction l with
  | nil => intro r d; simp
  | cons w rest ih =>
      intro r d
      by_cases hb : w.broken
      · simp [bstep, hb, ih]
      · simp [bstep, hb, ih]

/-- Membership after erasing, along a list, every failing socket: a socket
survives iff it was there and is not a failing socket of the list. -/
theorem erase_fold_mem :
    ∀ (l r : List WS), r.Nodup → ∀ ws : WS,
      (ws ∈ l.foldl (fun r' w => if w.broken then r'.erase w else r') r ↔
        (ws ∈ r ∧ ¬(ws.broken = true ∧ ws ∈ l))) := by
  intro l
  induction l with
  | nil => intro r hr ws; simp
  | cons w rest ih =>
      intro r hr ws
      simp only [List.foldl_cons]
      by_cases hb : w.broken
      · rw [if_pos hb]
        rw [ih (r.erase w) (hr.erase w) ws]
        rw [List.Nodup.mem_erase_iff hr]
        by_cases hw : ws = w
        · subst hw
          simp [hb]
        · simp only [List.mem_cons]
          constructor
          · rintro ⟨⟨hne, hmem⟩, hns⟩
            exact ⟨hmem, fun hp => hns ⟨hp.1, hp.2.resolve_left hw⟩⟩
          · rintro ⟨hmem, hns⟩
            exact ⟨⟨hw, hmem⟩, fun hp => hns ⟨hp.1, Or.inr hp.2⟩⟩
      · rw [if_neg hb]
        rw [ih r hr ws]
        by_cases hw : ws = w
        · subst hw
          have hb' : ws.broken = false := by simpa using hb
          simp [hb']
        · simp only [List.mem_cons]
          constructor
          · rintro ⟨hmem, hns⟩
            exact ⟨hmem, fun hp => hns ⟨hp.1, hp.2.resolve_left hw⟩⟩
          · rintro ⟨hmem, hns⟩
            exact ⟨hmem, fun hp => hns ⟨hp.1, Or.inr hp.2⟩⟩

/-- C9.  `broadcast(id, m)` over subscriber set `S`: the documents and
op logs are untouched (a failing send never fails the mutation), every
socket whose send succeeds receives `m` and stays subscribed, and every
socket whose send throws is removed from the subscriber set — one failing
socket never blocks the others. -/
theorem broadcast_spec (s : Store) (docId : String) (msg : String) (subs : List WS)
    (hsubs : s.subscribers docId = some subs) (hnodup : subs.Nodup) :
    ((s.broadcast docId msg).1.docs = s.docs) ∧
    ((s.broadcast docId msg).1.opLogs = s.opLogs) ∧
    (∀ ws ∈ subs, ws.broken = false →
      (ws, msg) ∈ (s.broadcast docId msg).2 ∧
      ws ∈ (((s.broadcast docId msg).1.subscribers docId).getD [])) ∧
    (∀ ws ∈ subs, ws.broken = true →
      ws ∉ (((s.broadcast docId msg).1.subscribers docId).getD [])) := by
  have hremain : ((s.broadcast docId msg).1.subscribers docId).getD []
      = subs.foldl (fun r' w => if w.broken then r'.erase w else r') subs := by
    simp [Store.broadcast, hsubs, bfold_fst]
  have hdeliv : (s.broadcast docId msg).2
      = (subs.filter (fun w => !w.broken)).map (fun w => (w, msg)) := by
    simp [Store.broadcast, hsubs, bfold_snd]
  have hdocs : (s.broadcast docId msg).1.docs = s.docs := by
    simp [Store.broadcast, hsubs]
  have hlogs : (s.broadcast docId msg).1.opLogs = s.opLogs := by
    simp [Store.broadcast, hsubs]
  refine ⟨hdocs, hlogs, ?_, ?_⟩
  · intro ws hws hok
    constructor
    · rw [hdeliv]
      apply List.mem_map.mpr
      exact ⟨ws, List.mem_filter.mpr ⟨hws, by simp [hok]⟩, rfl⟩
    · rw [hremain, erase_fold_mem subs subs hnodup ws]
      exact ⟨hws, fun hp => by rw [hok] at hp; exact Bool.false_ne_true hp.1⟩
  · intro ws hws hbad
    rw [hremain, erase_fold_mem subs subs hnodup ws]
    rintro ⟨-, hns⟩
    exact hns ⟨hbad, hws⟩

/-- C9, witness on three concrete subscribers, the middle one broken:
the healthy sockets receive the message and stay, the broken one is
dropped. -/
theorem broadcast_spec_witness :
    storeSubs.subscribers "d" = some [wsOk1, wsBad, wsOk2] ∧
    ([wsOk1, wsBad, wsOk2] : List WS).Nodup ∧
    (∀ ws ∈ [wsOk1, wsBad, wsOk2], ws.broken = false →
      (ws, "m") ∈ (storeSubs.broadcast "d" "m").2 ∧
      ws ∈ (((storeSubs.broadcast "d" "m").1.subscribers "d").getD [])) ∧
    (∀ ws ∈ [wsOk1, wsBad, wsOk2], ws.broken = true →
      ws ∉ (((storeSubs.broadcast "d" "m").1.subscribers "d").getD [])) :=
  ⟨by decide, by decide,
    (broadcast_spec storeSubs "d" "m" [wsOk1, wsBad, wsOk2] (by decide) (by decide)).2.2.1,
    (broadcast_spec storeSubs "d" "m" [wsOk1, wsBad, wsOk2] (by decide) (by decide)).2.2.2⟩
